import Mathlib

/-!
Verification of the conversation-state management core of the
rodrigogus94/langchain-langgraph examples (src/src/examples/ex001/main.py and
src/src/examples/ex002/main.py): transcript merging, checkpointed turns,
content normalization for archival (`_limpar_conteudo`), JSON archival
(`salvar_interacoes`, `messages_para_json`), and the interactive loop.
Pure Python functions are embedded as Lean functions over lists of
characters / JSON values; the external langgraph pieces (the `add_messages`
reducer, the graph executor, `InMemorySaver`) are modelled from the spec.
-/

namespace LgDemo

/-- A Python value appearing as a message's `content`: either a `str`, or any
other object carrying its `str(content)` representation (the only thing the
archival code uses of it, `main.py` line 94). -/
inductive PyVal where
  | str (s : String)
  | other (repr : String)
deriving DecidableEq, Repr

/-- One chat message: `type` is Python's `type(msg).__name__`
(e.g. "HumanMessage", "AIMessage"), `content` is the payload. -/
structure Message where
  type : String
  content : PyVal
deriving DecidableEq, Repr

/-- `HumanMessage(content=line)` as built in the main loops
(ex001 line 174, ex002 line 183). -/
def humanMessage (line : String) : Message :=
  { type := "HumanMessage", content := PyVal.str line }

/-- The ordered message history of one conversation
(`AgentState.messages`, ex001 lines 41-42). -/
structure Transcript where
  sequence : List Message
deriving DecidableEq, Repr

/-- Modelled from the spec: the `add_messages` reducer attached to
`AgentState.messages` (ex001 lines 41-42) lives in the langgraph library,
not in this repository; per the spec it "returns a new transcript whose
sequence is `existing.sequence ++ incoming`, preserving relative order of
both operands". -/
def merge (existing : Transcript) (incoming : List Message) : Transcript :=
  { sequence := existing.sequence ++ incoming }

/-! ## Content normalization (`_limpar_conteudo`, ex001 lines 85-94) -/

/-- One character of `content.replace("\n", " ").replace("\r", " ").replace("\t", " ")`. -/
def replaceNrt (c : Char) : Char :=
  if c = '\n' ∨ c = '\r' ∨ c = '\t' then ' ' else c

/-- The three chained `.replace` calls of `_limpar_conteudo` (ex001 line 92). -/
def replaceStep (s : List Char) : List Char :=
  s.map replaceNrt

/-- `re.sub(r" +", " ", texto)` (ex001 line 93): each maximal run of ASCII
spaces becomes a single space. The boolean records whether the previous
emitted character position is inside a run of spaces. -/
def collapseAux : Bool → List Char → List Char
  | _, [] => []
  | prevSpace, c :: rest =>
    if c = ' ' then
      if prevSpace then collapseAux true rest
      else ' ' :: collapseAux true rest
    else c :: collapseAux false rest

/-- `re.sub(r" +", " ", texto)` on a whole string. -/
def collapseSpaces (s : List Char) : List Char :=
  collapseAux false s

/-- Python's `str.isspace` character class (what the no-argument `str.strip`
removes): the Unicode whitespace code points recognised by CPython. -/
def pyIsSpace (c : Char) : Bool :=
  (0x09 ≤ c.val && c.val ≤ 0x0d) || (0x1c ≤ c.val && c.val ≤ 0x1f) ||
  c.val = 0x20 || c.val = 0x85 || c.val = 0xa0 || c.val = 0x1680 ||
  (0x2000 ≤ c.val && c.val ≤ 0x200a) ||
  c.val = 0x2028 || c.val = 0x2029 || c.val = 0x202f || c.val = 0x205f ||
  c.val = 0x3000

/-- Remove the trailing run of characters satisfying `p` (the right half of
Python's `str.strip`). -/
def rstrip (p : Char → Bool) : List Char → List Char
  | [] => []
  | c :: rest =>
    match rstrip p rest with
    | [] => if p c then [] else [c]
    | d :: r => c :: d :: r

/-- Python's `texto.strip()` (ex001 line 93): drop leading and trailing
whitespace characters. -/
def pyStrip (s : List Char) : List Char :=
  rstrip pyIsSpace (s.dropWhile pyIsSpace)

/-- `_limpar_conteudo` (ex001 lines 85-94, identical in ex002 lines 94-103):
for a `str`, replace newline / carriage return / tab by spaces, collapse runs
of spaces, and strip; anything else goes through `str(content)`. -/
def limpar_conteudo : PyVal → String
  | PyVal.str s => String.mk (pyStrip (collapseSpaces (replaceStep s.data)))
  | PyVal.other r => r

/-! ## JSON archival (`messages_para_json`, `salvar_interacoes`) -/

/-- JSON values, as produced by `json.loads` / consumed by `json.dumps`. -/
inductive Json where
  | null
  | bool (b : Bool)
  | num (n : Int)
  | str (s : String)
  | arr (elems : List Json)
  | obj (fields : List (String × Json))

/-- Whether `isinstance(lista, list)` holds of a parsed value. -/
def Json.isArr : Json → Bool
  | Json.arr _ => true
  | _ => false

/-- Field access on a JSON object (first occurrence of the key). -/
def Json.getField : Json → String → Option Json
  | Json.obj fields, key => fields.lookup key
  | _, _ => none

/-- `messages_para_json` (ex001 lines 97-109): one `{type, content}` record
per message, in order, content normalized by `_limpar_conteudo`. -/
def messages_para_json (messages : List Message) : List Json :=
  messages.map (fun msg =>
    Json.obj [("type", Json.str msg.type),
              ("content", Json.str (limpar_conteudo msg.content))])

/-- The model metadata read by `salvar_interacoes` via `getattr(llm, ..., None)`
(ex001 lines 132-135): each generation parameter is a JSON value, `null` when
the backend lacks the attribute. -/
structure LlmMeta where
  model : String
  temperature : Json
  max_tokens : Json
  top_p : Json

/-- The new archive entry `bloco` built by `salvar_interacoes`
(ex001 lines 130-137). -/
def bloco (data_hora : String) (meta : LlmMeta) (messages : List Message) : Json :=
  Json.obj [("data_hora", Json.str data_hora),
            ("model", Json.str meta.model),
            ("temperature", meta.temperature),
            ("max_tokens", meta.max_tokens),
            ("top_p", meta.top_p),
            ("messages", Json.arr (messages_para_json messages))]

/-- What the prior archive file looks like to `salvar_interacoes`
(ex001 lines 138-146): absent or zero-size; present and non-empty but with
bytes `path.read_text(encoding="utf-8")` (line 140) cannot decode, raising
`UnicodeDecodeError`; decoded but `json.loads` raises `JSONDecodeError`; or
decoded and parsed to a JSON value. -/
inductive PriorFile where
  | absentOrEmpty
  | undecodable
  | invalid
  | parsed (j : Json)

/-- The read of the prior archive (ex001 lines 138-146). Absent or empty
files and `JSONDecodeError` yield the empty list; a parsed non-array value
is wrapped in a one-element list; a parsed array is used as is. The
`except json.JSONDecodeError` handler (line 143) does not catch the
`UnicodeDecodeError` raised by `read_text` on undecodable bytes, so that
case escapes (`none`). -/
def tolerantRead : PriorFile → Option (List Json)
  | PriorFile.absentOrEmpty => some []
  | PriorFile.undecodable => none
  | PriorFile.invalid => some []
  | PriorFile.parsed (Json.arr elems) => some elems
  | PriorFile.parsed j => some [j]

/-- What `path.write_text(json.dumps(lista, ensure_ascii=False, indent=2))`
writes (ex001 line 148): the JSON value together with the serialization flags
used. -/
structure WriteOut where
  value : Json
  indent : Nat
  ensureAscii : Bool

/-- `salvar_interacoes` (ex001 lines 120-148): read the prior archive,
append the new `bloco`, and overwrite the file pretty-printed with
non-ASCII preserved. `data_hora` stands for the
`datetime.now().strftime(...)` timestamp. When the read raises an
exception the handler does not catch (undecodable bytes), it propagates:
no write happens (`none`). -/
def salvar_interacoes (data_hora : String) (meta : LlmMeta)
    (messages : List Message) (prior : PriorFile) : Option WriteOut :=
  match tolerantRead prior with
  | none => none
  | some lista =>
    some { value := Json.arr (lista ++ [bloco data_hora meta messages]),
           indent := 2,
           ensureAscii := false }

/-! ## Turns, checkpoint store, and the interactive loop -/

/-- The opaque generation capability: the full ordered history in, one reply
message out (`call_llm`, ex001 lines 51-53, wrapping `llm.invoke`). -/
abbrev Gen := List Message → Message

/-- One stateless turn (ex001 lines 174-177 combined with the spec-modelled
`merge`): append the new messages, call the model on the merged history,
append its reply. -/
def runTurnStateless (gen : Gen) (transcript newMessages : List Message) :
    List Message :=
  let merged := transcript ++ newMessages
  merged ++ [gen merged]

/-- Run a sequence of user turns in stateless mode: the caller threads the
full transcript into each invocation (ex001 main loop). -/
def runStateless (gen : Gen) : List Message → List Message → List Message
  | transcript, [] => transcript
  | transcript, u :: us =>
    runStateless gen (runTurnStateless gen transcript [u]) us

/-- Modelled from the spec: the Checkpoint Store (`InMemorySaver`,
ex002 line 80, library code not in this repository) maps thread keys to
stored transcripts; an unseen key holds the empty transcript. -/
abbrev Store := String → List Message

/-- Modelled from the spec: the empty Checkpoint Store (fresh `InMemorySaver`). -/
def Store.empty : Store := fun _ => []

/-- Modelled from the spec: `load(key)` of the Checkpoint Store. -/
def Store.load (st : Store) (key : String) : List Message := st key

/-- Modelled from the spec: `save(key, transcript)` of the Checkpoint Store. -/
def Store.save (st : Store) (key : String) (t : List Message) : Store :=
  fun k => if k = key then t else st k

/-- Modelled from the spec: one stateful turn (ex002 lines 183-185,
`graph.invoke({"messages": [new]}, config)` with a checkpointer): load the
prior transcript under the key, merge the new messages, call the model,
merge the reply, save the result back under the same key and return it. -/
def runTurnStateful (gen : Gen) (st : Store) (key : String)
    (newMessages : List Message) : Store × List Message :=
  let merged := st.load key ++ newMessages
  let result := merged ++ [gen merged]
  (st.save key result, result)

/-- Run a sequence of user turns in stateful mode under one thread key
(ex002 main loop): each turn submits only the new message. -/
def runStateful (gen : Gen) (st : Store) (key : String) :
    List Message → Store × List Message
  | [] => (st, st.load key)
  | u :: us => runStateful gen (runTurnStateful gen st key [u]).1 key us

/-- Run a sequence of turns, each tagged with its thread key, against a
shared Checkpoint Store. -/
def runTurns (gen : Gen) (st : Store) : List (String × Message) → Store
  | [] => st
  | (key, u) :: rest => runTurns gen (runTurnStateful gen st key [u]).1 rest

/-- Modelled from the spec: one fallible stateful turn. If the generation
capability fails (`llm.invoke` raises), the exception propagates out of
`graph.invoke` before the reply merge and the checkpoint write; per the spec
"no partial Message is merged and no checkpoint is updated". Returns the
store after the turn and the transcript on success. -/
def runTurnFallible (gen : List Message → Option Message) (st : Store)
    (key : String) (newMessages : List Message) :
    Store × Option (List Message) :=
  let merged := st.load key ++ newMessages
  match gen merged with
  | none => (st, none)
  | some reply =>
    let result := merged ++ [reply]
    (st.save key result, some result)

/-- The exit keywords of the interactive loop (ex001 line 165). -/
def exitCommands : List String := ["sair", "exit", "quit", "q"]

/-- `human_message.lower()` (ex001 line 165). -/
def pyLower (s : String) : String := s.map Char.toLower

/-- The interactive loop of ex001 (lines 160-177) on a prepared list of input
lines: returns the final transcript, how many times `salvar_interacoes` was
invoked, and whether the loop terminated via an exit keyword (running out of
input without one means the loop never reached its exit path). -/
def runLoop (gen : Gen) (msgs : List Message) :
    List String → List Message × Nat × Bool
  | [] => (msgs, 0, false)
  | line :: rest =>
    if pyLower line ∈ exitCommands then
      (msgs, if msgs.isEmpty then 0 else 1, true)
    else
      let afterUser := msgs ++ [humanMessage line]
      let afterTurn := afterUser ++ [gen afterUser]
      runLoop gen afterTurn rest

/-! ## Auxiliary predicates used in the claims -/

/-- Whether the string contains an ASCII control character. -/
def containsControlChar (s : String) : Bool :=
  s.data.any (fun c => c.val < 0x20 || c.val = 0x7f)

/-- Whether two consecutive ASCII space characters occur. -/
def hasDoubleSpace : List Char → Bool
  | c1 :: c2 :: rest => (c1 = ' ' && c2 = ' ') || hasDoubleSpace (c2 :: rest)
  | _ => false

/-- Whether two consecutive Python-whitespace characters occur. -/
def hasConsecWhitespace : List Char → Bool
  | c1 :: c2 :: rest =>
    (pyIsSpace c1 && pyIsSpace c2) || hasConsecWhitespace (c2 :: rest)
  | _ => false

/-- Whether the list starts with a character satisfying `p`. -/
def startsWith (p : Char → Bool) : List Char → Bool
  | [] => false
  | c :: _ => p c

/-- Whether the list ends with a character satisfying `p`. -/
def endsWith (p : Char → Bool) : List Char → Bool
  | [] => false
  | [c] => p c
  | _ :: c :: rest => endsWith p (c :: rest)

/-! ## Normalization lemmas -/

theorem collapseAux_true_cons_space (rest : List Char) :
    collapseAux true (' ' :: rest) = collapseAux true rest := by
  simp [collapseAux]

theorem collapseAux_false_cons_space (rest : List Char) :
    collapseAux false (' ' :: rest) = ' ' :: collapseAux true rest := by
  simp [collapseAux]

theorem collapseAux_cons_nonspace (b : Bool) (d : Char) (rest : List Char)
    (hd : d ≠ ' ') : collapseAux b (d :: rest) = d :: collapseAux false rest := by
  simp [collapseAux, hd]

theorem mem_of_mem_collapseAux :
    ∀ (l : List Char) (b : Bool) (c : Char), c ∈ collapseAux b l → c ∈ l := by
  intro l
  induction l with
  | nil => intro b c h; exact absurd h (by simp [collapseAux])
  | cons d rest ih =>
    intro b c h
    by_cases hd : d = ' '
    · subst hd
      cases b with
      | true =>
        rw [collapseAux_true_cons_space] at h
        exact List.mem_cons_of_mem _ (ih true c h)
      | false =>
        rw [collapseAux_false_cons_space] at h
        rcases List.mem_cons.mp h with hc | hc
        · exact hc ▸ List.mem_cons_self _ _
        · exact List.mem_cons_of_mem _ (ih true c hc)
    · rw [collapseAux_cons_nonspace _ _ _ hd] at h
      rcases List.mem_cons.mp h with hc | hc
      · exact hc ▸ List.mem_cons_self _ _
      · exact List.mem_cons_of_mem _ (ih false c hc)

theorem replaceNrt_not_nrt (c : Char) :
    replaceNrt c ≠ '\n' ∧ replaceNrt c ≠ '\r' ∧ replaceNrt c ≠ '\t' := by
  unfold replaceNrt
  split
  · refine ⟨by decide, by decide, by decide⟩
  · rename_i h
    push_neg at h
    exact h

theorem mem_replaceStep_not_nrt (s : List Char) (c : Char)
    (h : c ∈ replaceStep s) : c ≠ '\n' ∧ c ≠ '\r' ∧ c ≠ '\t' := by
  rcases List.mem_map.mp h with ⟨d, _, hd⟩
  exact hd ▸ replaceNrt_not_nrt d

theorem replaceStep_eq_self (s : List Char)
    (h : ∀ c ∈ s, c ≠ '\n' ∧ c ≠ '\r' ∧ c ≠ '\t') : replaceStep s = s := by
  unfold replaceStep
  induction s with
  | nil => rfl
  | cons c rest ih =>
    have hc := h c (List.mem_cons_self c rest)
    have hr : replaceNrt c = c := by
      unfold replaceNrt
      rw [if_neg]
      push_neg
      exact hc
    simp only [List.map_cons, hr]
    rw [ih (fun d hd => h d (List.mem_cons_of_mem c hd))]

theorem hasDoubleSpace_of_cons (c : Char) (l : List Char)
    (h : hasDoubleSpace (c :: l) = false) : hasDoubleSpace l = false := by
  cases l with
  | nil => rfl
  | cons d rest =>
    simp only [hasDoubleSpace, Bool.or_eq_false_iff] at h
    exact h.2

theorem collapseAux_true_not_space_head :
    ∀ l : List Char,
      startsWith (fun c => decide (c = ' ')) (collapseAux true l) = false := by
  intro l
  induction l with
  | nil => rfl
  | cons d rest ih =>
    by_cases hd : d = ' '
    · subst hd
      rw [collapseAux_true_cons_space]
      exact ih
    · rw [collapseAux_cons_nonspace _ _ _ hd]
      simp [startsWith, hd]

theorem hasDoubleSpace_collapseAux :
    ∀ (l : List Char) (b : Bool), hasDoubleSpace (collapseAux b l) = false := by
  intro l
  induction l with
  | nil => intro b; rfl
  | cons d rest ih =>
    intro b
    by_cases hd : d = ' '
    · subst hd
      cases b with
      | true =>
        rw [collapseAux_true_cons_space]
        exact ih true
      | false =>
        rw [collapseAux_false_cons_space]
        have hhead := collapseAux_true_not_space_head rest
        cases hL : collapseAux true rest with
        | nil => rfl
        | cons e r =>
          rw [hL] at hhead
          simp only [startsWith, decide_eq_false_iff_not] at hhead
          simp only [hasDoubleSpace, Bool.or_eq_false_iff]
          constructor
          · simp [hhead]
          · have h2 := ih true
            rw [hL] at h2
            exact h2
    · rw [collapseAux_cons_nonspace _ _ _ hd]
      cases hL : collapseAux false rest with
      | nil => rfl
      | cons e r =>
        simp only [hasDoubleSpace, Bool.or_eq_false_iff]
        constructor
        · simp [hd]
        · have h2 := ih false
          rw [hL] at h2
          exact h2

theorem collapseAux_false_eq_self :
    ∀ l : List Char, hasDoubleSpace l = false → collapseAux false l = l := by
  intro l
  induction l with
  | nil => intro h; rfl
  | cons c rest ih =>
    intro h
    have hrest := hasDoubleSpace_of_cons c rest h
    by_cases hc : c = ' '
    · subst hc
      rw [collapseAux_false_cons_space]
      cases rest with
      | nil => rfl
      | cons d t =>
        have hd : d ≠ ' ' := by
          intro hd
          subst hd
          simp [hasDoubleSpace] at h
        rw [collapseAux_cons_nonspace _ _ _ hd]
        have h2 := ih hrest
        rw [collapseAux_cons_nonspace _ _ _ hd] at h2
        injection h2 with _ h3
        rw [h3]
    · rw [collapseAux_cons_nonspace _ _ _ hc, ih hrest]

theorem mem_of_mem_dropWhile (p : Char → Bool) :
    ∀ (l : List Char) (c : Char), c ∈ l.dropWhile p → c ∈ l := by
  intro l
  induction l with
  | nil => intro c h; simp at h
  | cons d rest ih =>
    intro c h
    rw [List.dropWhile_cons] at h
    by_cases hd : p d = true
    · rw [if_pos hd] at h
      exact List.mem_cons_of_mem _ (ih c h)
    · rw [if_neg hd] at h
      exact h

theorem rstrip_cons_of_eq_nil (p : Char → Bool) (d : Char) (rest : List Char)
    (hr : rstrip p rest = []) :
    rstrip p (d :: rest) = if p d then [] else [d] := by
  simp only [rstrip, hr]

theorem rstrip_cons_of_eq_cons (p : Char → Bool) (d e : Char)
    (rest r : List Char) (hr : rstrip p rest = e :: r) :
    rstrip p (d :: rest) = d :: e :: r := by
  simp only [rstrip, hr]

theorem mem_of_mem_rstrip (p : Char → Bool) :
    ∀ (l : List Char) (c : Char), c ∈ rstrip p l → c ∈ l := by
  intro l
  induction l with
  | nil => intro c h; simp [rstrip] at h
  | cons d rest ih =>
    intro c h
    cases hr : rstrip p rest with
    | nil =>
      rw [rstrip_cons_of_eq_nil _ _ _ hr] at h
      by_cases hd : p d = true
      · rw [if_pos hd] at h
        simp at h
      · rw [if_neg hd] at h
        rcases List.mem_singleton.mp h with hc
        exact hc ▸ List.mem_cons_self _ _
    | cons e r =>
      rw [rstrip_cons_of_eq_cons _ _ _ _ _ hr] at h
      rcases List.mem_cons.mp h with hc | hc
      · exact hc ▸ List.mem_cons_self _ _
      · exact List.mem_cons_of_mem _ (ih c (hr ▸ hc))

theorem startsWith_dropWhile (p : Char → Bool) :
    ∀ l : List Char, startsWith p (l.dropWhile p) = false := by
  intro l
  induction l with
  | nil => rfl
  | cons d rest ih =>
    by_cases hd : p d = true
    · rw [List.dropWhile_cons, if_pos hd]
      exact ih
    · rw [List.dropWhile_cons, if_neg hd]
      simpa [startsWith] using hd

theorem dropWhile_eq_self_of_head (p : Char → Bool) (l : List Char)
    (h : startsWith p l = false) : l.dropWhile p = l := by
  cases l with
  | nil => rfl
  | cons d rest =>
    simp only [startsWith] at h
    rw [List.dropWhile_cons, if_neg (by simp [h])]

theorem startsWith_rstrip (p q : Char → Bool) (l : List Char)
    (h : startsWith q l = false) : startsWith q (rstrip p l) = false := by
  cases l with
  | nil => rfl
  | cons d rest =>
    simp only [startsWith] at h
    cases hr : rstrip p rest with
    | nil =>
      rw [rstrip_cons_of_eq_nil _ _ _ hr]
      by_cases hd : p d = true
      · rw [if_pos hd]; rfl
      · rw [if_neg hd]
        simpa [startsWith] using h
    | cons e r =>
      rw [rstrip_cons_of_eq_cons _ _ _ _ _ hr]
      simpa [startsWith] using h

theorem endsWith_rstrip (p : Char → Bool) :
    ∀ l : List Char, endsWith p (rstrip p l) = false := by
  intro l
  induction l with
  | nil => rfl
  | cons d rest ih =>
    cases hr : rstrip p rest with
    | nil =>
      rw [rstrip_cons_of_eq_nil _ _ _ hr]
      by_cases hd : p d = true
      · rw [if_pos hd]; rfl
      · rw [if_neg hd]
        simpa [endsWith] using hd
    | cons e r =>
      rw [rstrip_cons_of_eq_cons _ _ _ _ _ hr]
      have hstep : endsWith p (d :: e :: r) = endsWith p (e :: r) := by
        simp [endsWith]
      rw [hstep, ← hr]
      exact ih

theorem rstrip_eq_self_of_last (p : Char → Bool) :
    ∀ l : List Char, endsWith p l = false → rstrip p l = l := by
  intro l
  induction l with
  | nil => intro h; rfl
  | cons d rest ih =>
    intro h
    cases rest with
    | nil =>
      simp only [endsWith] at h
      rw [rstrip_cons_of_eq_nil p d [] rfl, if_neg (by simp [h])]
    | cons e t =>
      have h2 : endsWith p (e :: t) = false := by simpa [endsWith] using h
      have hr := ih h2
      rw [rstrip_cons_of_eq_cons _ _ _ _ _ hr]

theorem hasDoubleSpace_dropWhile (p : Char → Bool) :
    ∀ l : List Char, hasDoubleSpace l = false →
      hasDoubleSpace (l.dropWhile p) = false := by
  intro l
  induction l with
  | nil => intro h; exact h
  | cons d rest ih =>
    intro h
    by_cases hd : p d = true
    · rw [List.dropWhile_cons, if_pos hd]
      exact ih (hasDoubleSpace_of_cons d rest h)
    · rw [List.dropWhile_cons, if_neg hd]
      exact h

theorem hasDoubleSpace_rstrip (p : Char → Bool) :
    ∀ l : List Char, hasDoubleSpace l = false →
      hasDoubleSpace (rstrip p l) = false := by
  intro l
  induction l with
  | nil => intro h; exact h
  | cons d rest ih =>
    intro h
    have hrest := hasDoubleSpace_of_cons d rest h
    cases hr : rstrip p rest with
    | nil =>
      rw [rstrip_cons_of_eq_nil _ _ _ hr]
      by_cases hd : p d = true
      · rw [if_pos hd]; rfl
      · rw [if_neg hd]; rfl
    | cons e r =>
      rw [rstrip_cons_of_eq_cons _ _ _ _ _ hr]
      cases rest with
      | nil => simp [rstrip] at hr
      | cons e0 t =>
        have he : e = e0 := by
          cases ht : rstrip p t with
          | nil =>
            rw [rstrip_cons_of_eq_nil _ _ _ ht] at hr
            by_cases h0 : p e0 = true
            · rw [if_pos h0] at hr
              simp at hr
            · rw [if_neg h0] at hr
              injection hr with h1 _
              exact h1.symm
          | cons f r2 =>
            rw [rstrip_cons_of_eq_cons _ _ _ _ _ ht] at hr
            injection hr with h1 _
            exact h1.symm
        subst he
        simp only [hasDoubleSpace, Bool.or_eq_false_iff] at h ⊢
        refine ⟨h.1, ?_⟩
        have h3 := ih hrest
        rw [hr] at h3
        exact h3

theorem mem_of_mem_pyStrip (l : List Char) (c : Char) (h : c ∈ pyStrip l) :
    c ∈ l :=
  mem_of_mem_dropWhile pyIsSpace l c (mem_of_mem_rstrip pyIsSpace _ c h)

theorem hasDoubleSpace_pyStrip (l : List Char)
    (h : hasDoubleSpace l = false) : hasDoubleSpace (pyStrip l) = false :=
  hasDoubleSpace_rstrip pyIsSpace _ (hasDoubleSpace_dropWhile pyIsSpace l h)

theorem startsWith_pyStrip (l : List Char) :
    startsWith pyIsSpace (pyStrip l) = false :=
  startsWith_rstrip pyIsSpace pyIsSpace _ (startsWith_dropWhile pyIsSpace l)

theorem endsWith_pyStrip (l : List Char) :
    endsWith pyIsSpace (pyStrip l) = false :=
  endsWith_rstrip pyIsSpace _

theorem pyStrip_eq_self (l : List Char) (h1 : startsWith pyIsSpace l = false)
    (h2 : endsWith pyIsSpace l = false) : pyStrip l = l := by
  unfold pyStrip
  rw [dropWhile_eq_self_of_head pyIsSpace l h1,
      rstrip_eq_self_of_last pyIsSpace l h2]

theorem limpar_str_data (s : String) :
    (limpar_conteudo (PyVal.str s)).data
      = pyStrip (collapseSpaces (replaceStep s.data)) := rfl

theorem limpar_no_nrt (s : String) (c : Char)
    (h : c ∈ (limpar_conteudo (PyVal.str s)).data) :
    c ≠ '\n' ∧ c ≠ '\r' ∧ c ≠ '\t' := by
  rw [limpar_str_data] at h
  have h1 := mem_of_mem_pyStrip _ c h
  have h2 := mem_of_mem_collapseAux _ false c h1
  exact mem_replaceStep_not_nrt _ c h2

theorem limpar_no_double_space (s : String) :
    hasDoubleSpace (limpar_conteudo (PyVal.str s)).data = false := by
  rw [limpar_str_data]
  exact hasDoubleSpace_pyStrip _ (hasDoubleSpace_collapseAux _ false)

/-! ## Checkpoint store lemmas -/

theorem Store.load_save_self (st : Store) (key : String) (t : List Message) :
    (st.save key t).load key = t := by
  simp [Store.save, Store.load]

theorem Store.load_save_other (st : Store) (key k : String) (t : List Message)
    (h : k ≠ key) : (st.save key t).load k = st.load k := by
  simp [Store.save, Store.load, h]

theorem runStateful_load (gen : Gen) :
    ∀ (us : List Message) (st : Store) (key : String),
      (runStateful gen st key us).2 = runStateless gen (st.load key) us ∧
      (runStateful gen st key us).1.load key
        = runStateless gen (st.load key) us := by
  intro us
  induction us with
  | nil => intro st key; exact ⟨rfl, rfl⟩
  | cons u us ih =>
    intro st key
    have hstep :
        ((runTurnStateful gen st key [u]).1).load key
          = runTurnStateless gen (st.load key) [u] := by
      simp [runTurnStateful, runTurnStateless, Store.load_save_self]
    have h1 : runStateful gen st key (u :: us)
        = runStateful gen (runTurnStateful gen st key [u]).1 key us := rfl
    have h2 : runStateless gen (st.load key) (u :: us)
        = runStateless gen (runTurnStateless gen (st.load key) [u]) us := rfl
    rw [h1, h2, ← hstep]
    exact ih (runTurnStateful gen st key [u]).1 key

theorem runTurns_load (gen : Gen) :
    ∀ (turns : List (String × Message)) (st : Store) (k : String),
      (runTurns gen st turns).load k
        = List.foldl (fun t u => runTurnStateless gen t [u]) (st.load k)
            ((turns.filter (fun p => p.1 = k)).map Prod.snd) := by
  intro turns
  induction turns with
  | nil => intro st k; rfl
  | cons turn rest ih =>
    intro st k
    obtain ⟨key, u⟩ := turn
    have h1 : runTurns gen st ((key, u) :: rest)
        = runTurns gen (runTurnStateful gen st key [u]).1 rest := rfl
    rw [h1, ih]
    by_cases hk : key = k
    · subst hk
      have hload : ((runTurnStateful gen st key [u]).1).load key
          = runTurnStateless gen (st.load key) [u] := by
        simp [runTurnStateful, runTurnStateless, Store.load_save_self]
      rw [hload]
      simp [List.filter]
    · have hload : ((runTurnStateful gen st key [u]).1).load k = st.load k := by
        have hne : k ≠ key := fun h => hk h.symm
        simp [runTurnStateful, Store.load_save_other _ _ _ _ hne]
      rw [hload]
      simp [List.filter, hk]

/-! ## Claims C1 - C5, C7, C9 -/

/-- C1: the transcript reducer `merge(T, M)` returns a transcript whose
sequence is exactly `T.sequence` followed by `M`, preserving order and
dropping nothing, and `merge(T, [])` equals `T`. -/
theorem claim_C1 (T : Transcript) (M : List Message) :
    (merge T M).sequence = T.sequence ++ M ∧ merge T [] = T := by
  refine ⟨rfl, ?_⟩
  cases T
  simp [merge]

/-- C2: running the same user turns with the same generation function in
stateless mode (full transcript threaded by the caller, ex001) and in
stateful mode (only the new message submitted under one thread key against a
fresh checkpoint store, ex002) yields the same final transcript, both as the
value returned to the caller and as the checkpoint stored under the key. -/
theorem claim_C2 (gen : Gen) (key : String) (us : List Message) :
    (runStateful gen Store.empty key us).2 = runStateless gen [] us ∧
    (runStateful gen Store.empty key us).1.load key
      = runStateless gen [] us := by
  have h := runStateful_load gen us Store.empty key
  have hempty : Store.empty.load key = ([] : List Message) := rfl
  rw [hempty] at h
  exact h

/-- C3: if the generation capability fails during a turn, the turn leaves the
checkpoint store unchanged under every key and produces no transcript: no
partial message is merged, no checkpoint is updated. -/
theorem claim_C3 (gen : List Message → Option Message) (st : Store)
    (key : String) (newMessages : List Message)
    (hfail : gen (st.load key ++ newMessages) = none) :
    (runTurnFallible gen st key newMessages).1 = st ∧
    (runTurnFallible gen st key newMessages).2 = none ∧
    ∀ k, ((runTurnFallible gen st key newMessages).1).load k = st.load k := by
  simp [runTurnFallible, hfail]

theorem claim_C3_witness :
    (runTurnFallible (fun _ => none) Store.empty "t1" []).2 = none ∧
    ((runTurnFallible (fun _ => none) Store.empty "t1" []).1).load "t2"
      = Store.empty.load "t2" :=
  ⟨(claim_C3 (fun _ => none) Store.empty "t1" [] rfl).2.1,
   (claim_C3 (fun _ => none) Store.empty "t1" [] rfl).2.2 "t2"⟩

/-- C4: the transcript loaded under a thread key `B` after any sequence of
turns against an initially empty checkpoint store is built exclusively from
the turns submitted under `B` (in order), so messages submitted under any
other key never appear in it; and loading a key immediately after storing a
transcript under it returns exactly that transcript. -/
theorem claim_C4 (gen : Gen) (turns : List (String × Message)) (B : String) :
    (runTurns gen Store.empty turns).load B
      = List.foldl (fun t u => runTurnStateless gen t [u]) []
          ((turns.filter (fun p => p.1 = B)).map Prod.snd) ∧
    ∀ (st : Store) (k : String) (t : List Message),
      (st.save k t).load k = t := by
  refine ⟨?_, fun st k t => Store.load_save_self st k t⟩
  have h := runTurns_load gen turns Store.empty B
  have hempty : Store.empty.load B = ([] : List Message) := rfl
  rw [hempty] at h
  exact h

/-- C5 counterexample: the claim says archiving never fails due to
unreadable prior content, but a present, non-empty archive file whose bytes
cannot be decoded as UTF-8 makes `path.read_text` (ex001 line 140) raise
`UnicodeDecodeError`, which `except json.JSONDecodeError` (line 143) does
not catch: the exception propagates and no write happens. -/
theorem claim_C5_counterexample :
    salvar_interacoes "2026-01-01 00:00:00"
        ⟨"deepseek-r1:8b", Json.null, Json.null, Json.null⟩ []
        PriorFile.undecodable = none := rfl

/-- C5 (amended): the archiver recovers from prior content that decodes but
is not parseable as JSON: an absent or empty file, or one whose decoded text
is not parseable as JSON, is treated as an empty prior array (so archiving
over invalid JSON yields a one-element array holding only the new entry),
and a parsed non-array value is wrapped in a one-element array before the
new entry is appended; but a non-empty file whose bytes cannot be decoded
makes the archive attempt fail with no write. -/
theorem claim_C5 (dh : String) (meta : LlmMeta) (msgs : List Message) :
    salvar_interacoes dh meta msgs PriorFile.invalid
      = some { value := Json.arr [bloco dh meta msgs],
               indent := 2, ensureAscii := false } ∧
    salvar_interacoes dh meta msgs PriorFile.absentOrEmpty
      = some { value := Json.arr [bloco dh meta msgs],
               indent := 2, ensureAscii := false } ∧
    (∀ j : Json, j.isArr = false →
      salvar_interacoes dh meta msgs (PriorFile.parsed j)
        = some { value := Json.arr [j, bloco dh meta msgs],
                 indent := 2, ensureAscii := false }) ∧
    salvar_interacoes dh meta msgs PriorFile.undecodable = none := by
  refine ⟨rfl, rfl, fun j hj => ?_, rfl⟩
  cases j with
  | arr elems => exact absurd hj (by simp [Json.isArr])
  | null => rfl
  | bool b => rfl
  | num n => rfl
  | str s => rfl
  | obj fields => rfl

theorem claim_C5_witness :
    Json.isArr (Json.num 0) = false ∧
    salvar_interacoes "2026-01-01 00:00:00"
        ⟨"deepseek-r1:8b", Json.null, Json.null, Json.null⟩ []
        (PriorFile.parsed (Json.num 0))
      = some { value := Json.arr [Json.num 0,
                 bloco "2026-01-01 00:00:00"
                   ⟨"deepseek-r1:8b", Json.null, Json.null, Json.null⟩ []],
               indent := 2, ensureAscii := false } :=
  ⟨rfl, (claim_C5 "2026-01-01 00:00:00"
      ⟨"deepseek-r1:8b", Json.null, Json.null, Json.null⟩ []).2.2.1
    (Json.num 0) rfl⟩

/-- C7: after every completed archive write, the file holds a JSON array
equal to the read prior array with exactly one new entry appended, whose
fields are data_hora, model, temperature, max_tokens, top_p and messages
(one `{type, content}` record per transcript message, in order), written
with indent 2 and without ASCII escaping. -/
theorem claim_C7 (dh : String) (meta : LlmMeta) (msgs : List Message)
    (prior : PriorFile) (lista : List Json)
    (hread : tolerantRead prior = some lista) :
    salvar_interacoes dh meta msgs prior
      = some { value := Json.arr (lista ++ [bloco dh meta msgs]),
               indent := 2, ensureAscii := false } ∧
    (bloco dh meta msgs).getField "data_hora" = some (Json.str dh) ∧
    (bloco dh meta msgs).getField "model" = some (Json.str meta.model) ∧
    (bloco dh meta msgs).getField "temperature" = some meta.temperature ∧
    (bloco dh meta msgs).getField "max_tokens" = some meta.max_tokens ∧
    (bloco dh meta msgs).getField "top_p" = some meta.top_p ∧
    (bloco dh meta msgs).getField "messages"
      = some (Json.arr (msgs.map (fun m =>
          Json.obj [("type", Json.str m.type),
                    ("content", Json.str (limpar_conteudo m.content))]))) := by
  refine ⟨?_, ?_, ?_, ?_, ?_, ?_, ?_⟩
  · simp only [salvar_interacoes, hread]
  all_goals simp [bloco, Json.getField, List.lookup, messages_para_json]

theorem claim_C7_witness :
    tolerantRead (PriorFile.parsed (Json.arr [Json.null])) = some [Json.null] ∧
    salvar_interacoes "2026-01-01 00:00:00"
        ⟨"deepseek-r1:8b", Json.null, Json.null, Json.null⟩ []
        (PriorFile.parsed (Json.arr [Json.null]))
      = some { value := Json.arr [Json.null,
                 bloco "2026-01-01 00:00:00"
                   ⟨"deepseek-r1:8b", Json.null, Json.null, Json.null⟩ []],
               indent := 2, ensureAscii := false } :=
  ⟨rfl, (claim_C7 "2026-01-01 00:00:00"
      ⟨"deepseek-r1:8b", Json.null, Json.null, Json.null⟩ []
      (PriorFile.parsed (Json.arr [Json.null])) [Json.null] rfl).1⟩

/-- C9: the interactive loop terminates exactly when some input line
lowercases to one of the exit keywords (the loop stops at the first such
line), and on such termination the archiver is invoked exactly once if and
only if the session transcript is non-empty (zero invocations otherwise, and
zero if the input is exhausted without an exit keyword). -/
theorem claim_C9 (gen : Gen) :
    ∀ (lines : List String) (msgs : List Message),
      (runLoop gen msgs lines).2.2
        = lines.any (fun l => pyLower l ∈ exitCommands) ∧
      (runLoop gen msgs lines).2.1
        = (if (runLoop gen msgs lines).2.2
              && !(runLoop gen msgs lines).1.isEmpty
           then 1 else 0) := by
  intro lines
  induction lines with
  | nil => intro msgs; exact ⟨rfl, rfl⟩
  | cons line rest ih =>
    intro msgs
    by_cases hexit : pyLower line ∈ exitCommands
    · have hrun : runLoop gen msgs (line :: rest)
          = (msgs, if msgs.isEmpty then 0 else 1, true) := by
        simp [runLoop, hexit]
      rw [hrun]
      constructor
      · simp [List.any, hexit]
      · cases hm : msgs.isEmpty <;> simp [hm]
    · have hrun : runLoop gen msgs (line :: rest)
          = runLoop gen ((msgs ++ [humanMessage line])
              ++ [gen (msgs ++ [humanMessage line])]) rest := by
        simp [runLoop, hexit]
      rw [hrun]
      have h := ih ((msgs ++ [humanMessage line])
          ++ [gen (msgs ++ [humanMessage line])])
      refine ⟨?_, h.2⟩
      rw [h.1]
      simp [List.any, hexit]

/-! ## Claims C6, C8, C10 -/

/-- C6: archival normalization of a string content replaces newline,
carriage-return and tab characters by single spaces, then collapses runs of
spaces, then trims leading and trailing whitespace — so
`"Hello\nWorld\t  there"` archives as `"Hello World there"` — and content
that is not a string is converted via its generic string representation. -/
theorem claim_C6 :
    (∀ s : String, limpar_conteudo (PyVal.str s)
        = String.mk (pyStrip (collapseSpaces (replaceStep s.data)))) ∧
    limpar_conteudo (PyVal.str "Hello\nWorld\t  there") = "Hello World there" ∧
    ∀ r : String, limpar_conteudo (PyVal.other r) = r := by
  refine ⟨fun s => rfl, ?_, fun r => rfl⟩
  rfl

/-- C8 counterexample: the claim says archived content contains no control
characters and no consecutive whitespace at all, but the code only replaces
newline, carriage return and tab: the content `"a\x0B\x0Bb"` (vertical tabs)
is archived verbatim, keeping both control characters and two consecutive
whitespace characters. -/
theorem claim_C8_counterexample :
    limpar_conteudo (PyVal.str "a\u000B\u000Bb") = "a\u000B\u000Bb" ∧
    containsControlChar (limpar_conteudo (PyVal.str "a\u000B\u000Bb")) = true ∧
    hasConsecWhitespace
        (limpar_conteudo (PyVal.str "a\u000B\u000Bb")).data = true := by
  refine ⟨rfl, rfl, rfl⟩

/-- C8 (amended): for every string content, the archived content contains no
newline, carriage-return or tab characters and no two consecutive ASCII space
characters, and it neither begins nor ends with a whitespace character;
control characters other than newline, carriage return and tab (and
whitespace runs not made of ASCII spaces) may remain. -/
theorem claim_C8 (s : String) :
    ((limpar_conteudo (PyVal.str s)).data.all
        (fun c => !(decide (c = '\n') || decide (c = '\r') || decide (c = '\t'))))
      = true ∧
    hasDoubleSpace (limpar_conteudo (PyVal.str s)).data = false ∧
    startsWith pyIsSpace (limpar_conteudo (PyVal.str s)).data = false ∧
    endsWith pyIsSpace (limpar_conteudo (PyVal.str s)).data = false := by
  refine ⟨?_, limpar_no_double_space s, ?_, ?_⟩
  · rw [List.all_eq_true]
    intro c hc
    have h := limpar_no_nrt s c hc
    simp [h.1, h.2.1, h.2.2]
  · rw [limpar_str_data]
    exact startsWith_pyStrip _
  · rw [limpar_str_data]
    exact endsWith_pyStrip _

/-- C10: the content-normalization function is idempotent on strings:
normalizing an already-normalized string returns it unchanged. -/
theorem claim_C10 (s : String) :
    limpar_conteudo (PyVal.str (limpar_conteudo (PyVal.str s)))
      = limpar_conteudo (PyVal.str s) := by
  have h1 : replaceStep (limpar_conteudo (PyVal.str s)).data
      = (limpar_conteudo (PyVal.str s)).data :=
    replaceStep_eq_self _ (fun c hc => limpar_no_nrt s c hc)
  have h2 : collapseSpaces (limpar_conteudo (PyVal.str s)).data
      = (limpar_conteudo (PyVal.str s)).data :=
    collapseAux_false_eq_self _ (limpar_no_double_space s)
  have h3 : pyStrip (limpar_conteudo (PyVal.str s)).data
      = (limpar_conteudo (PyVal.str s)).data :=
    pyStrip_eq_self _
      (by rw [limpar_str_data]; exact startsWith_pyStrip _)
      (by rw [limpar_str_data]; exact endsWith_pyStrip _)
  show String.mk (pyStrip (collapseSpaces
      (replaceStep (limpar_conteudo (PyVal.str s)).data)))
    = limpar_conteudo (PyVal.str s)
  rw [h1, h2, h3]

end LgDemo
